import Mathlib

/-!
Verification of the ts-path core (PathMapper / FileUtils) against its
natural-language specification.

The development shallowly embeds the decision logic of the repository:

* `FileUtils.generateAlias` (src/utils/fileUtils.ts, lines 79-100),
* `PathMapper.discoverPaths`, `PathMapper.generateMappings`,
  `PathMapper.resolveAliasConflict`, `PathMapper.findBetterMapping`,
  `PathMapper.validateExistingMappings`, `PathMapper.updateTsConfig`
  (src/PathMapper.ts).

External collaborators (filesystem listing, existence checks, config I/O)
are passed in as explicit inputs, following the spec's collaborator model.
Node's `path` module helpers (`relative`, `parse`, `basename`, `resolve`,
`sep`) are modelled for normalized posix paths, and JavaScript's
`String.prototype.localeCompare` is modelled for ASCII strings under the
default (ICU root) collation: case-insensitive primary comparison with a
lowercase-before-uppercase tiebreak.
-/

namespace TsPath

/-- Character class of the regular expression `[a-zA-Z0-9]`. -/
def isAlnumAscii (c : Char) : Bool :=
  ('a' ≤ c && c ≤ 'z') || ('A' ≤ c && c ≤ 'Z') || ('0' ≤ c && c ≤ '9')

/-- Character class of the regular expression `\w`, i.e. `[A-Za-z0-9_]`. -/
def isWordChar (c : Char) : Bool :=
  isAlnumAscii c || c = '_'

/-- Character class of the regular expression `\s` (ASCII part). -/
def jsSpace (c : Char) : Bool :=
  c = ' ' || c = '\t' || c = '\n' || c = '\r' || c = '\x0b' || c = '\x0c'

/-- ASCII letter test, the character class of `[a-zA-Z]`. -/
def isAsciiLetterChar (c : Char) : Bool :=
  ('a' ≤ c && c ≤ 'z') || ('A' ≤ c && c ≤ 'Z')

/-- The regular-expression test `/^[a-zA-Z]/.test s`: the first character of
`s` is an ASCII letter. -/
def startsWithAsciiLetter (s : String) : Bool :=
  match s.toList with
  | [] => false
  | c :: _ => isAsciiLetterChar c

/-- Split a character list on a separator, keeping empty fields, matching
the semantics of JavaScript's `String.prototype.split` with a one-character
separator (so the empty string splits into one empty field). -/
def splitChars (sep : Char) : List Char → List (List Char)
  | [] => [[]]
  | c :: rest =>
    let r := splitChars sep rest
    if c = sep then [] :: r
    else
      match r with
      | [] => [[c]]
      | h :: t => (c :: h) :: t

/-- Join character lists with a separator character (inverse direction of
`splitChars`). -/
def joinChars (sep : Char) : List (List Char) → List Char
  | [] => []
  | [x] => x
  | x :: y :: rest => x ++ sep :: joinChars sep (y :: rest)

/-- The nonempty `/`-separated segments of a posix path string. -/
def splitSegs (s : String) : List (List Char) :=
  (splitChars '/' s.toList).filter (fun l => l ≠ [])

/-- Model of Node's posix `path.basename` on normalized paths: the last
nonempty `/`-separated segment, or the empty string when there is none. -/
def pathBasename (s : String) : String :=
  match (splitSegs s).getLast? with
  | some l => String.mk l
  | none => ""

/-- Drop the longest shared leading run of two segment lists. Used by the
model of `path.relative`. -/
def dropShared : List (List Char) → List (List Char) → List (List Char) × List (List Char)
  | a :: as, b :: bs => if a = b then dropShared as bs else (a :: as, b :: bs)
  | as, bs => (as, bs)

/-- Model of Node's posix `path.relative fromP toP` on normalized absolute
paths: drop the shared segment run, prepend one `..` per remaining segment of
`fromP`, and rejoin with `/`. -/
def pathRelative (fromP toP : String) : String :=
  let p := dropShared (splitSegs fromP) (splitSegs toP)
  String.mk (joinChars '/' (List.replicate p.1.length ['.', '.'] ++ p.2))

/-- Model of Node's posix `path.resolve rootDir p` on normalized inputs:
an absolute `p` is returned as is, a relative `p` is joined onto `rootDir`. -/
def pathResolve (rootDir p : String) : String :=
  if p.toList.head? = some '/' then p else rootDir ++ "/" ++ p

/-- Split a basename at its last dot into `(name, ext)` where the extension
keeps its leading dot; `none` when the basename has no dot. Helper for the
model of `path.parse`. -/
def extSplitAux : List Char → Option (List Char × List Char)
  | [] => none
  | c :: rest =>
    match extSplitAux rest with
    | some p => some (c :: p.1, p.2)
    | none => if c = '.' then some ([], '.' :: rest) else none

/-- Model of Node's `path.parse` restricted to the `name` and `ext` fields:
the basename is split at its last dot, except that a dot at position 0 (a
dotfile) yields an empty `ext`. (Node's special case for a basename of
exactly `..` is not modelled; nothing in the claims depends on it.) -/
def pathParseNameExt (s : String) : List Char × List Char :=
  let base := (pathBasename s).toList
  match extSplitAux base with
  | some p => if p.1 = [] then (base, []) else p
  | none => (base, [])

/-- First regex pass of `FileUtils.generateAlias`: the global replacement
`replace(/[^a-zA-Z0-9]/g, ' ')`, sending every non-alphanumeric character to
a space. -/
def spaceStep (l : List Char) : List Char :=
  l.map (fun c => if isAlnumAscii c then c else ' ')

/-- Worker for the second regex pass `replace(/\s+(\w)/g, upcase)`. The
`pending` argument buffers a run of whitespace characters already read: when
the run is followed by a word character the whole match is replaced by the
uppercased word character, otherwise the buffered run is emitted unchanged,
exactly as the global regex scan behaves. -/
def camelGo (pending : List Char) : List Char → List Char
  | [] => pending
  | c :: rest =>
    if jsSpace c then camelGo (pending ++ [c]) rest
    else if !pending.isEmpty && isWordChar c then c.toUpper :: camelGo [] rest
    else pending ++ c :: camelGo [] rest

/-- Second regex pass of `FileUtils.generateAlias`: uppercase each word
character that follows a whitespace run and delete the run. -/
def camelStep (l : List Char) : List Char :=
  camelGo [] l

/-- Third regex pass of `FileUtils.generateAlias`:
`replace(/^(\w)/, downcase)` lowercases a leading word character. -/
def lowerFirst : List Char → List Char
  | [] => []
  | c :: rest => if isWordChar c then c.toLower :: rest else c :: rest

/-- The `type` field of a `DiscoveredPath` record: `'file' | 'directory'`. -/
inductive PathType where
  | file : PathType
  | directory : PathType
deriving DecidableEq, Repr, BEq

/-- One filesystem entity found during a scan (interface `DiscoveredPath`
of src/types.ts). -/
structure DiscoveredPath where
  «alias» : String
  path : String
  relativePath : String
  type : PathType
  depth : Nat
deriving DecidableEq, Repr, BEq

/-- Case weight of a character in the ICU root collation model: lowercase
(and caseless) characters sort before uppercase at the tertiary level. -/
def caseVal (c : Char) : Nat :=
  if c.isUpper then 1 else 0

/-- Strict lexicographic comparison of weight vectors, used as the tiebreak
level of the `localeCompare` model. -/
def keyLt : List Nat → List Nat → Bool
  | [], [] => false
  | [], _ :: _ => true
  | _ :: _, [] => false
  | a :: xs, b :: ys => decide (a < b) || (decide (a = b) && keyLt xs ys)

/-- The vector of case weights of a string. -/
def caseKey (s : String) : List Nat :=
  s.toList.map caseVal

/-- Character-wise ASCII lowercase folding of a string. -/
def toLowerStr (s : String) : String :=
  String.mk (s.toList.map Char.toLower)

/-- Strict lexicographic (code-point) order on strings, stated on the
character sequences. It agrees with the string order
(`String.lt_iff_toList_lt`) and is kernel-computable. -/
def strLtLex (x y : String) : Prop :=
  x.toList < y.toList

instance : ∀ x y, Decidable (strLtLex x y) :=
  fun x y => inferInstanceAs (Decidable (x.toList < y.toList))

/-- Model of JavaScript's `String.prototype.localeCompare` for ASCII strings
under the default (ICU root) collation: the primary level compares the
case-folded strings, and for primary-equal strings the tertiary level puts
lowercase before uppercase at the first position where the case differs. -/
def localeCompare (x y : String) : Int :=
  if strLtLex (toLowerStr x) (toLowerStr y) then -1
  else if strLtLex (toLowerStr y) (toLowerStr x) then 1
  else if keyLt (caseKey x) (caseKey y) then -1
  else if keyLt (caseKey y) (caseKey x) then 1
  else 0

namespace FileUtils

/-- Embedding of `FileUtils.generateAlias` (src/utils/fileUtils.ts,
lines 79-100): derive the candidate alias of a path. The relative path is
parsed, its `name` is folded to camel case with a lowercased first letter;
for extension-less paths (directories) the raw basename of `filePath` is
used instead; finally a `p` is prefixed when the result does not start with
an ASCII letter. -/
def generateAlias (filePath rootDir : String) : String :=
  let relativePath := pathRelative rootDir filePath
  let parsed := pathParseNameExt relativePath
  let folded := String.mk (lowerFirst (camelStep (spaceStep parsed.1)))
  let alias0 := if parsed.2 = [] then pathBasename filePath else folded
  if startsWithAsciiLetter alias0 then alias0 else "p" ++ alias0

end FileUtils

namespace PathMapper

/-- Embedding of `PathMapper.calculateDepth`: the number of path separators
in a relative path, computed as `relativePath.split(path.sep).length - 1`
with the posix separator. -/
def calculateDepth (relativePath : String) : Nat :=
  (splitChars '/' relativePath.toList).length - 1

/-- The comparator passed to `Array.prototype.sort` in
`PathMapper.discoverPaths` (src/PathMapper.ts, lines 102-107): depth
difference first, `localeCompare` of the aliases on equal depth. -/
def discoverCmp (a b : DiscoveredPath) : Int :=
  if a.depth ≠ b.depth then (a.depth : Int) - (b.depth : Int)
  else localeCompare a.alias b.alias

/-- The total preorder induced by the discovery comparator: `a` may come
before `b` exactly when the comparator is non-positive. -/
def discoverLe (a b : DiscoveredPath) : Prop :=
  discoverCmp a b ≤ 0

instance : DecidableRel discoverLe :=
  fun a b => inferInstanceAs (Decidable (discoverCmp a b ≤ 0))

/-- Build the `DiscoveredPath` record of one file or directory, as the two
loops of `PathMapper.discoverPaths` do: root-relative path, derived alias,
and separator-count depth. -/
def mkDiscovered (t : PathType) (rootDir p : String) : DiscoveredPath :=
  let relativePath := pathRelative rootDir p
  { «alias» := FileUtils.generateAlias p rootDir
    path := p
    relativePath := relativePath
    type := t
    depth := calculateDepth relativePath }

/-- Embedding of `PathMapper.discoverPaths` (src/PathMapper.ts, lines
63-111). The external listers are inputs (`tsFiles`, `directories`), per the
spec's collaborator model; files then directories are turned into records
and the combined list is sorted with the depth-then-localeCompare
comparator. JavaScript's `Array.prototype.sort` is modelled as a stable
sort consistent with the comparator. -/
def discoverPaths (rootDir : String) (tsFiles directories : List String) : List DiscoveredPath :=
  List.insertionSort discoverLe
    (tsFiles.map (mkDiscovered PathType.file rootDir)
      ++ directories.map (mkDiscovered PathType.directory rootDir))

/-- The JavaScript `reduce` of `resolveAliasConflict`: starting from `x`,
keep the current record unless the candidate has a strictly shorter
`relativePath`, so the first record attaining the minimum wins. -/
def shortestBy (x : DiscoveredPath) (xs : List DiscoveredPath) : DiscoveredPath :=
  xs.foldl (fun s c => if c.relativePath.length < s.relativePath.length then c else s) x

/-- Embedding of `PathMapper.resolveAliasConflict` (src/PathMapper.ts,
lines 295-314): prefer files over directories, then the record with the
shortest `relativePath`; the result is the `(alias, path)` pair of the
winner. The final fallback mirrors line 313; on an empty group the
JavaScript code would fault reading `items[0].alias`, which the total
embedding renders with a junk pair that no theorem relies on. -/
def resolveAliasConflict («alias» : String) (items : List DiscoveredPath) : String × String :=
  match items.filter (fun i => decide (i.type = PathType.file)) with
  | f :: fs =>
    ((shortestBy f fs).alias, (shortestBy f fs).relativePath)
  | [] =>
    match items.filter (fun i => decide (i.type = PathType.directory)) with
    | d :: ds =>
      ((shortestBy d ds).alias, (shortestBy d ds).relativePath)
    | [] =>
      match items with
      | i :: _ => (i.alias, i.relativePath)
      | [] => («alias», "")

/-- Model of the `Map`-based grouping of `generateMappings` (src/
PathMapper.ts, lines 123-131): keys appear in first-occurrence order and
each group lists its records in discovery order, matching JavaScript `Map`
insertion-order iteration. -/
def groupByAlias (l : List DiscoveredPath) : List (String × List DiscoveredPath) :=
  match l with
  | [] => []
  | i :: rest =>
    (i.alias, i :: rest.filter (fun j => j.alias = i.alias)) ::
      groupByAlias (rest.filter (fun j => j.alias ≠ i.alias))
termination_by l.length
decreasing_by
  simp only [List.length_cons]
  exact Nat.lt_succ_of_le (List.length_filter_le _ _)

/-- Result record of `generateMappings` (interface `PathMapperResult`). -/
structure PathMapperResult where
  mappings : List (String × String)
  discovered : List DiscoveredPath
  suggestions : List String
  warnings : List String
  errors : List String
deriving DecidableEq, Repr

/-- The per-group loop of `generateMappings` (src/PathMapper.ts, lines
133-149), producing the mapping entries, suggestions and warnings in group
order: a singleton group emits its record directly (plus a deep-path
suggestion when `depth > 2`), a larger group goes through
`resolveAliasConflict` and emits one warning. -/
def processGroups : List (String × List DiscoveredPath) →
    List (String × String) × List String × List String
  | [] => ([], [], [])
  | g :: rest =>
    let r := processGroups rest
    match g.2 with
    | [item] =>
      (("@" ++ g.1, item.relativePath) :: r.1,
        (if item.depth > 2 then
          ["Consider using a shorter alias for deep path: " ++ item.relativePath]
        else []) ++ r.2.1,
        r.2.2)
    | _ =>
      let resolved := resolveAliasConflict g.1 g.2
      (("@" ++ resolved.1, resolved.2) :: r.1,
        r.2.1,
        ("Alias conflict resolved: " ++ g.1 ++ " -> " ++ resolved.1 ++ " for " ++ resolved.2)
          :: r.2.2)

/-- Embedding of `PathMapper.generateMappings` (src/PathMapper.ts, lines
116-158) downstream of discovery: group the discovered records by alias and
process each group; the `errors` slot is returned as the untouched empty
array of line 121. -/
def generateMappings (discovered : List DiscoveredPath) : PathMapperResult :=
  let p := processGroups (groupByAlias discovered)
  { mappings := p.1
    discovered := discovered
    suggestions := p.2.1
    warnings := p.2.2
    errors := [] }

/-- A JSON value stored under one alias of the `compilerOptions.paths`
node: the implementation writes plain strings, while a pre-existing node may
hold the array-valued legacy form. -/
inductive PVal where
  | str : String → PVal
  | arr : List String → PVal
deriving DecidableEq, Repr

/-- The `compilerOptions` node of a configuration document: the `paths`
mapping (absent or present) plus the remaining scalar entries, which the
update only ever copies. -/
structure CompilerOptionsDoc where
  paths : Option (List (String × PVal))
  rest : List (String × String)
deriving DecidableEq, Repr

/-- A configuration document: an optional `compilerOptions` node plus the
remaining top-level entries, which the update only ever copies. -/
structure TsConfigDoc where
  compilerOptions : Option CompilerOptionsDoc
  rest : List (String × String)
deriving DecidableEq, Repr

/-- The baseline document synthesized by `updateTsConfig` (src/PathMapper.ts,
lines 232-242) when no configuration file exists yet. -/
def defaultTsConfig : TsConfigDoc :=
  { compilerOptions := some
      { paths := none
        rest := [("target", "ES2020"), ("module", "commonjs"), ("strict", "true"),
          ("esModuleInterop", "true"), ("skipLibCheck", "true"),
          ("forceConsistentCasingInFileNames", "true")] }
    rest := [] }

/-- Lift a plain alias table to the stored `paths` representation: the
implementation writes a single string per alias. -/
def strMap (m : List (String × String)) : List (String × PVal) :=
  m.map (fun kv => (kv.1, PVal.str kv.2))

/-- Override one entry by the right-hand object of a spread: an entry whose
key also occurs in `b` takes `b`'s (first) value for that key. -/
def spreadOverride (b : List (String × PVal)) (kv : String × PVal) : String × PVal :=
  match b.lookup kv.1 with
  | some v => (kv.1, v)
  | none => kv

/-- JavaScript object spread `{...a, ...b}` on insertion-ordered objects:
keys of `a` keep their positions with values overridden by `b` on collision,
and keys of `b` not present in `a` are appended in `b`-order. -/
def objSpread (a b : List (String × PVal)) : List (String × PVal) :=
  a.map (spreadOverride b) ++ b.filter (fun kv => !((a.map Prod.fst).contains kv.1))

/-- Embedding of the document transform of `PathMapper.updateTsConfig`
(src/PathMapper.ts, lines 223-260), with the file read/write factored out:
`existing` is the parsed on-disk document when the file exists. A missing
document is synthesized from the baseline, a missing `compilerOptions` node
is created empty, and the `paths` node is spread-merged when `merge` is set
and a `paths` node is present, replaced otherwise. -/
def updateTsConfigDoc (existing : Option TsConfigDoc) (newMappings : List (String × String))
    (merge : Bool) : TsConfigDoc :=
  let config := existing.getD defaultTsConfig
  let co := config.compilerOptions.getD { paths := none, rest := [] }
  let newPaths :=
    match merge, co.paths with
    | true, some oldPaths => objSpread oldPaths (strMap newMappings)
    | _, _ => strMap newMappings
  { config with compilerOptions := some { co with paths := some newPaths } }

/-- The `compilerOptions.paths` node of a document, when present. -/
def pathsNode (c : TsConfigDoc) : Option (List (String × PVal)) :=
  c.compilerOptions.bind (fun co => co.paths)

/-- Severity of a validation issue (`'error' | 'warning' | 'info'`). -/
inductive IssueType where
  | error : IssueType
  | warning : IssueType
  | info : IssueType
deriving DecidableEq, Repr, BEq

/-- One validation issue (interface `ValidationIssue`). -/
structure ValidationIssue where
  type : IssueType
  message : String
  path : Option String
  suggestion : Option String
deriving DecidableEq, Repr

/-- Result of a validation run (interface `ValidationResult`). -/
structure ValidationResult where
  isValid : Bool
  issues : List ValidationIssue
deriving DecidableEq, Repr

/-- The external collaborators consulted by `validateExistingMappings`,
passed as one explicit environment: the config-file existence check, the
parse outcome of `readTsConfig` (`none` models a thrown read/parse failure,
with `errorText` the interpolated failure text), the per-path outcome of
`FileUtils.validatePathMapping`, and the outcome of the internal
`discoverPaths` re-run (`none` models a thrown discovery failure). -/
structure ValidateEnv where
  configExists : Bool
  readResult : Option TsConfigDoc
  pathMappingValid : String → Bool
  discoverResult : Option (List DiscoveredPath)
  errorText : String

/-- The expression `Array.isArray(mapping) ? mapping[0] : mapping` of line
181: a plain string is used as is, an array contributes its first element,
and an empty array yields JavaScript `undefined` (modelled as `none`, which
downstream makes `path.resolve` throw). -/
def pvalHead : PVal → Option String
  | PVal.str s => some s
  | PVal.arr l => l.head?

/-- The expression `config.compilerOptions?.paths || {}` of line 178. -/
def configPathEntries (config : TsConfigDoc) : List (String × PVal) :=
  match config.compilerOptions with
  | none => []
  | some co => co.paths.getD []

/-- Embedding of `PathMapper.findBetterMapping` (src/PathMapper.ts, lines
316-328): the first discovered record resolving to the same absolute
location with a strictly shorter `relativePath`. -/
def findBetterMapping (rootDir : String) («alias» currentPath : String)
    (discovered : List DiscoveredPath) : Option String :=
  let targetPath := pathResolve rootDir currentPath
  discovered.findSome? (fun item =>
    if pathResolve rootDir item.relativePath = targetPath
        ∧ item.relativePath.length < currentPath.length then
      some item.relativePath
    else none)

/-- The entry loop of `validateExistingMappings` (src/PathMapper.ts, lines
180-204). Issues are accumulated in order; a thrown step (an `undefined`
mapping path hitting `path.resolve`, or a failing internal discovery) aborts
the loop carrying the issues pushed so far, which the outer catch keeps. -/
def validateLoop (env : ValidateEnv) (rootDir : String) :
    List (String × PVal) → List ValidationIssue →
      Except (List ValidationIssue) (List ValidationIssue)
  | [], acc => Except.ok acc
  | e :: rest, acc =>
    match pvalHead e.2 with
    | none => Except.error acc
    | some mappingPath =>
      if env.pathMappingValid mappingPath then
        match env.discoverResult with
        | none => Except.error acc
        | some discovered =>
          match findBetterMapping rootDir e.1 mappingPath discovered with
          | some betterMapping =>
            validateLoop env rootDir rest (acc ++
              [{ type := IssueType.info
                 message := "Consider using shorter path: " ++ betterMapping
                 path := some mappingPath
                 suggestion := some betterMapping }])
          | none => validateLoop env rootDir rest acc
      else
        validateLoop env rootDir rest (acc ++
          [{ type := IssueType.error
             message := "Invalid path mapping: " ++ e.1 ++ " -> " ++ mappingPath
             path := some mappingPath
             suggestion := some "Remove or fix this mapping" }])

/-- Embedding of `PathMapper.validateExistingMappings` (src/PathMapper.ts,
lines 163-218): a missing configuration file yields the single not-found
error; a failing read yields the single catch error; otherwise the entry
loop runs, a mid-loop throw appends the catch error to the issues pushed so
far, and a completed loop computes `isValid` as the absence of
error-severity issues. -/
def validateExistingMappings (env : ValidateEnv) (rootDir : String)
    (tsConfigPath : Option String) : ValidationResult :=
  let configPath := tsConfigPath.getD (rootDir ++ "/tsconfig.json")
  if env.configExists = false then
    { isValid := false
      issues := [{ type := IssueType.error, message := "tsconfig.json not found",
                   path := some configPath, suggestion := none }] }
  else
    match env.readResult with
    | none =>
      { isValid := false
        issues := [{ type := IssueType.error,
                     message := "Failed to validate mappings: " ++ env.errorText,
                     path := some configPath, suggestion := none }] }
    | some config =>
      match validateLoop env rootDir (configPathEntries config) [] with
      | Except.error acc =>
        { isValid := false
          issues := acc ++ [{ type := IssueType.error,
                              message := "Failed to validate mappings: " ++ env.errorText,
                              path := some configPath, suggestion := none }] }
      | Except.ok issues =>
        { isValid := (issues.filter (fun issue => issue.type == IssueType.error)).length == 0
          issues := issues }

end PathMapper

/-- Rendering of claim C4's order property exactly as the claim states it:
adjacent records are ordered by ascending depth, ties broken by
lexicographic alias order. Lexicographically-less-or-equal is rendered, on
the alias character sequences, as not-strictly-greater, which for the
lexicographic total order is the same relation (and agrees with the string
order by `String.lt_iff_toList_lt`). This follows the spec's words; the
source comparator is `discoverCmp`. -/
def sortedByDepthAliasLex (l : List DiscoveredPath) : Prop :=
  List.Chain'
    (fun a b => a.depth < b.depth ∨
      (a.depth = b.depth ∧ ¬ b.alias.toList < a.alias.toList))
    l

end TsPath

open TsPath TsPath.PathMapper TsPath.FileUtils

/-- A boolean that is not true is false. -/
theorem bool_eq_false (b : Bool) (h : ¬ b = true) : b = false := by
  cases b
  · rfl
  · exact absurd rfl h

/-- The tiebreak comparison is irreflexive. -/
theorem keyLt_irrefl : ∀ u : List Nat, keyLt u u = false
  | [] => rfl
  | a :: xs => by simp [keyLt, keyLt_irrefl xs]

/-- The tiebreak comparison is transitive. -/
theorem keyLt_trans : ∀ u v w : List Nat, keyLt u v = true → keyLt v w = true →
    keyLt u w = true := by
  intro u
  induction u with
  | nil =>
    intro v w huv hvw
    cases v with
    | nil => simp [keyLt] at huv
    | cons b bs =>
      cases w with
      | nil => simp [keyLt] at hvw
      | cons c cs => simp [keyLt]
  | cons a xs ih =>
    intro v w huv hvw
    cases v with
    | nil => simp [keyLt] at huv
    | cons b bs =>
      cases w with
      | nil => simp [keyLt] at hvw
      | cons c cs =>
        simp only [keyLt, Bool.or_eq_true, Bool.and_eq_true, decide_eq_true_eq] at huv hvw ⊢
        rcases huv with h1 | ⟨h1, h1'⟩ <;> rcases hvw with h2 | ⟨h2, h2'⟩
        · exact Or.inl (lt_trans h1 h2)
        · exact Or.inl (h2 ▸ h1)
        · exact Or.inl (h1 ▸ h2)
        · exact Or.inr ⟨h1.trans h2, ih bs cs h1' h2'⟩

/-- The tiebreak comparison is trichotomous. -/
theorem keyLt_tricho : ∀ u v : List Nat, keyLt u v = true ∨ keyLt v u = true ∨ u = v := by
  intro u
  induction u with
  | nil =>
    intro v
    cases v with
    | nil => exact Or.inr (Or.inr rfl)
    | cons b bs => exact Or.inl (by simp [keyLt])
  | cons a xs ih =>
    intro v
    cases v with
    | nil => exact Or.inr (Or.inl (by simp [keyLt]))
    | cons b bs =>
      rcases Nat.lt_trichotomy a b with h | h | h
      · exact Or.inl (by simp [keyLt, h])
      · rcases ih bs with h' | h' | h'
        · exact Or.inl (by simp [keyLt, h, h'])
        · exact Or.inr (Or.inl (by simp [keyLt, h, h']))
        · exact Or.inr (Or.inr (by rw [h, h']))
      · exact Or.inr (Or.inl (by simp [keyLt, h]))

/-- The tiebreak comparison is asymmetric. -/
theorem keyLt_asymm (u v : List Nat) (h : keyLt u v = true) : keyLt v u = false := by
  cases hvu : keyLt v u with
  | false => rfl
  | true =>
    have := keyLt_trans u v u h hvu
    rw [keyLt_irrefl] at this
    exact Bool.noConfusion this

/-- The tiebreak comparison is negatively transitive. -/
theorem keyLt_negtrans (u v w : List Nat) (h1 : keyLt v u = false) (h2 : keyLt w v = false) :
    keyLt w u = false := by
  cases hwu : keyLt w u with
  | false => rfl
  | true =>
    exfalso
    rcases keyLt_tricho u v with h | h | h
    · have := keyLt_trans w u v hwu h
      rw [h2] at this
      exact Bool.noConfusion this
    · rw [h1] at h
      exact Bool.noConfusion h
    · rw [h] at hwu
      rw [h2] at hwu
      exact Bool.noConfusion hwu

/-- Characterization of a non-positive `localeCompare` outcome: primary-level
strict order on the folded strings, or primary equality with the tiebreak not
favouring the right string. -/
theorem localeCompare_le_iff (x y : String) :
    localeCompare x y ≤ 0 ↔
      (strLtLex (toLowerStr x) (toLowerStr y) ∨
        (toLowerStr x = toLowerStr y ∧ keyLt (caseKey y) (caseKey x) = false)) := by
  unfold localeCompare
  by_cases h1 : strLtLex (toLowerStr x) (toLowerStr y)
  · rw [if_pos h1]
    exact iff_of_true (by norm_num) (Or.inl h1)
  · rw [if_neg h1]
    by_cases h2 : strLtLex (toLowerStr y) (toLowerStr x)
    · rw [if_pos h2]
      refine iff_of_false (by norm_num) ?_
      rintro (h | ⟨heq, _⟩)
      · exact h1 h
      · have h2' : (toLowerStr y).toList < (toLowerStr x).toList := h2
        exact h2'.ne' (congrArg String.toList heq)
    · have h1' : ¬ (toLowerStr x).toList < (toLowerStr y).toList := h1
      have h2' : ¬ (toLowerStr y).toList < (toLowerStr x).toList := h2
      have heq : toLowerStr x = toLowerStr y :=
        String.toList_inj.mp (le_antisymm (not_lt.mp h2') (not_lt.mp h1'))
      rw [if_neg h2]
      by_cases h3 : keyLt (caseKey x) (caseKey y) = true
      · rw [if_pos h3]
        exact iff_of_true (by norm_num) (Or.inr ⟨heq, keyLt_asymm _ _ h3⟩)
      · rw [if_neg h3]
        by_cases h4 : keyLt (caseKey y) (caseKey x) = true
        · rw [if_pos h4]
          refine iff_of_false (by norm_num) ?_
          rintro (h | ⟨_, hf⟩)
          · exact h1 h
          · rw [h4] at hf
            exact Bool.noConfusion hf
        · rw [if_neg h4]
          exact iff_of_true le_rfl (Or.inr ⟨heq, bool_eq_false _ h4⟩)

/-- The `localeCompare` preorder is total. -/
theorem localeCompare_total (x y : String) :
    localeCompare x y ≤ 0 ∨ localeCompare y x ≤ 0 := by
  rcases lt_trichotomy (toLowerStr x).toList (toLowerStr y).toList with h | h | h
  · exact Or.inl ((localeCompare_le_iff x y).mpr (Or.inl h))
  · have heq : toLowerStr x = toLowerStr y := String.toList_inj.mp h
    by_cases h4 : keyLt (caseKey y) (caseKey x) = true
    · exact Or.inr ((localeCompare_le_iff y x).mpr (Or.inr ⟨heq.symm, keyLt_asymm _ _ h4⟩))
    · exact Or.inl ((localeCompare_le_iff x y).mpr (Or.inr ⟨heq, bool_eq_false _ h4⟩))
  · exact Or.inr ((localeCompare_le_iff y x).mpr (Or.inl h))

/-- The `localeCompare` preorder is transitive. -/
theorem localeCompare_trans (x y z : String) (hxy : localeCompare x y ≤ 0)
    (hyz : localeCompare y z ≤ 0) : localeCompare x z ≤ 0 := by
  rw [localeCompare_le_iff] at hxy hyz ⊢
  rcases hxy with h1 | ⟨h1, h1'⟩ <;> rcases hyz with h2 | ⟨h2, h2'⟩
  · have h1' : (toLowerStr x).toList < (toLowerStr y).toList := h1
    have h2' : (toLowerStr y).toList < (toLowerStr z).toList := h2
    exact Or.inl (show (toLowerStr x).toList < (toLowerStr z).toList from h1'.trans h2')
  · exact Or.inl (h2 ▸ h1)
  · exact Or.inl (h1 ▸ h2)
  · exact Or.inr ⟨h1.trans h2, keyLt_negtrans _ _ _ h1' h2'⟩

/-- The final guard of `generateAlias` forces a non-empty result starting
with an ASCII letter, whatever string reaches it. -/
theorem alias_guard_spec (s : String) :
    0 < (if startsWithAsciiLetter s then s else "p" ++ s).length ∧
      isAsciiLetterChar
        ((if startsWithAsciiLetter s then s else "p" ++ s).toList.headD 'p') = true := by
  by_cases h : startsWithAsciiLetter s = true
  · have hh : ∃ c cs, s.toList = c :: cs ∧ isAsciiLetterChar c = true := by
      unfold startsWithAsciiLetter at h
      cases hl : s.toList with
      | nil => rw [hl] at h; exact absurd h (by simp)
      | cons c cs => rw [hl] at h; exact ⟨c, cs, rfl, h⟩
    obtain ⟨c, cs, hl, hc⟩ := hh
    constructor
    · rw [if_pos h]
      have hlen : s.length = s.toList.length := rfl
      rw [hlen, hl]
      simp
    · rw [if_pos h, hl]
      simpa using hc
  · have hdata : ("p" ++ s).toList = 'p' :: s.toList := by
      show ("p" ++ s).data = 'p' :: s.data
      rw [String.data_append]
      rfl
    constructor
    · rw [if_neg h]
      have hlen : ("p" ++ s).length = ("p" ++ s).toList.length := rfl
      rw [hlen, hdata]
      simp
    · rw [if_neg h, hdata]
      rfl

/-- C3: the alias-derivation function is pure and total; for every path
string and root string it returns a non-empty string whose first character
is an ASCII letter. (Purity and absence of I/O are witnessed by the
embedding being a total Lean function of its two string arguments.) -/
theorem generateAlias_nonempty_starts_with_letter (filePath rootDir : String) :
    0 < (FileUtils.generateAlias filePath rootDir).length ∧
      isAsciiLetterChar ((FileUtils.generateAlias filePath rootDir).toList.headD 'p') = true :=
  alias_guard_spec _

/-- Characterization of the discovery order: non-positive comparator means
strictly smaller depth, or equal depth and non-positive `localeCompare` of
the aliases. -/
theorem discoverLe_iff (a b : DiscoveredPath) :
    PathMapper.discoverLe a b ↔
      (a.depth < b.depth ∨ (a.depth = b.depth ∧ localeCompare a.alias b.alias ≤ 0)) := by
  unfold PathMapper.discoverLe PathMapper.discoverCmp
  by_cases h : a.depth = b.depth
  · rw [if_neg (not_not_intro h)]
    simp [h]
  · rw [if_pos h]
    constructor
    · intro hle
      left
      omega
    · rintro (hlt | ⟨heq, _⟩)
      · omega
      · exact absurd heq h

/-- The discovery order is total. -/
theorem discoverLe_total (a b : DiscoveredPath) :
    PathMapper.discoverLe a b ∨ PathMapper.discoverLe b a := by
  rw [discoverLe_iff, discoverLe_iff]
  rcases Nat.lt_trichotomy a.depth b.depth with h | h | h
  · exact Or.inl (Or.inl h)
  · rcases localeCompare_total a.alias b.alias with hl | hl
    · exact Or.inl (Or.inr ⟨h, hl⟩)
    · exact Or.inr (Or.inr ⟨h.symm, hl⟩)
  · exact Or.inr (Or.inl h)

/-- The discovery order is transitive. -/
theorem discoverLe_trans (a b c : DiscoveredPath) (hab : PathMapper.discoverLe a b)
    (hbc : PathMapper.discoverLe b c) : PathMapper.discoverLe a c := by
  rw [discoverLe_iff] at hab hbc ⊢
  rcases hab with h1 | ⟨h1, h1'⟩ <;> rcases hbc with h2 | ⟨h2, h2'⟩
  · exact Or.inl (h1.trans h2)
  · exact Or.inl (h2 ▸ h1)
  · exact Or.inl (h1 ▸ h2)
  · exact Or.inr ⟨h1.trans h2, localeCompare_trans _ _ _ h1' h2'⟩

/-- C4 (amended): the output of `discoverPaths` is sorted ascending by
depth and, among records of equal depth, by the locale-aware comparison the
comparator actually uses (`localeCompare`, modelled for ASCII as the ICU
root collation), which is not code-point-lexicographic alias order. -/
theorem discoverPaths_sorted_depth_locale (rootDir : String)
    (tsFiles directories : List String) :
    List.Chain'
      (fun a b => a.depth < b.depth ∨
        (a.depth = b.depth ∧ localeCompare a.alias b.alias ≤ 0))
      (PathMapper.discoverPaths rootDir tsFiles directories) := by
  haveI : IsTotal DiscoveredPath PathMapper.discoverLe := ⟨discoverLe_total⟩
  haveI : IsTrans DiscoveredPath PathMapper.discoverLe := ⟨discoverLe_trans⟩
  have hs := List.sorted_insertionSort PathMapper.discoverLe
    (tsFiles.map (PathMapper.mkDiscovered PathType.file rootDir)
      ++ directories.map (PathMapper.mkDiscovered PathType.directory rootDir))
  have hp : List.Pairwise
      (fun a b => a.depth < b.depth ∨
        (a.depth = b.depth ∧ localeCompare a.alias b.alias ≤ 0))
      (PathMapper.discoverPaths rootDir tsFiles directories) := by
    unfold PathMapper.discoverPaths
    exact hs.imp (fun hab => (discoverLe_iff _ _).mp hab)
  exact hp.chain'

/-- C4 (counterexample): on a scan of the two directories `Button` and
`api` under root `/r`, the output of `discoverPaths` is ordered
`api, Button` by the locale-aware comparator, which violates the claimed
code-point-lexicographic alias order (`"Button" < "api"` since `'B' < 'a'`). -/
theorem discoverPaths_not_sorted_lex :
    ¬ sortedByDepthAliasLex (PathMapper.discoverPaths "/r" [] ["/r/Button", "/r/api"]) := by
  have hEval : PathMapper.discoverPaths "/r" [] ["/r/Button", "/r/api"] =
      [{ «alias» := "api", path := "/r/api", relativePath := "api",
         type := PathType.directory, depth := 0 },
       { «alias» := "Button", path := "/r/Button", relativePath := "Button",
         type := PathType.directory, depth := 0 }] := rfl
  intro h
  unfold sortedByDepthAliasLex at h
  rw [hEval, List.chain'_cons] at h
  rcases h.1 with hlt | ⟨heq, hnlt⟩
  · exact absurd hlt (by decide)
  · exact hnlt (by decide)

/-- Unfolding of one `reduce` step of `shortestBy`. -/
theorem shortestBy_cons (x c : DiscoveredPath) (t : List DiscoveredPath) :
    shortestBy x (c :: t) =
      shortestBy (if c.relativePath.length < x.relativePath.length then c else x) t := rfl

/-- The record chosen by `shortestBy` splits its input into a prefix of
strictly longer records and a suffix of records at least as long: it is the
first record attaining the minimal `relativePath` length. -/
theorem shortestBy_decomp (xs : List DiscoveredPath) : ∀ x : DiscoveredPath,
    ∃ pre post, x :: xs = pre ++ shortestBy x xs :: post ∧
      (∀ y ∈ pre, (shortestBy x xs).relativePath.length < y.relativePath.length) ∧
      (∀ y ∈ post, (shortestBy x xs).relativePath.length ≤ y.relativePath.length) := by
  induction xs with
  | nil =>
    intro x
    refine ⟨[], [], rfl, ?_, ?_⟩ <;> intro y hy <;> exact absurd hy (List.not_mem_nil y)
  | cons c t ih =>
    intro x
    rw [shortestBy_cons]
    by_cases hc : c.relativePath.length < x.relativePath.length
    · rw [if_pos hc]
      obtain ⟨pre, post, hdec, hpre, hpost⟩ := ih c
      have hwc : (shortestBy c t).relativePath.length ≤ c.relativePath.length := by
        cases pre with
        | nil =>
          rw [List.nil_append] at hdec
          injection hdec with h1 _
          rw [← h1]
        | cons p ps =>
          rw [List.cons_append] at hdec
          injection hdec with h1 _
          have hlt := hpre p (List.mem_cons_self p ps)
          rw [← h1] at hlt
          exact le_of_lt hlt
      refine ⟨x :: pre, post, ?_, ?_, hpost⟩
      · rw [List.cons_append, ← hdec]
      · intro y hy
        rcases List.mem_cons.mp hy with rfl | hy2
        · exact lt_of_le_of_lt hwc hc
        · exact hpre y hy2
    · rw [if_neg hc]
      obtain ⟨pre, post, hdec, hpre, hpost⟩ := ih x
      cases pre with
      | nil =>
        rw [List.nil_append] at hdec
        injection hdec with h1 h2
        refine ⟨[], c :: t, ?_, ?_, ?_⟩
        · rw [List.nil_append, ← h1]
        · intro y hy
          exact absurd hy (List.not_mem_nil y)
        · intro y hy
          rcases List.mem_cons.mp hy with rfl | hy2
          · rw [← h1]
            exact not_lt.mp hc
          · rw [h2] at hy2
            exact hpost y hy2
      | cons p ps =>
        rw [List.cons_append] at hdec
        injection hdec with h1 h2
        refine ⟨x :: c :: ps, post, ?_, ?_, hpost⟩
        · rw [List.cons_append, List.cons_append, ← h2]
        · intro y hy
          rcases List.mem_cons.mp hy with rfl | hy2
          · have hwx := hpre p (List.mem_cons_self p ps)
            rw [← h1] at hwx
            exact hwx
          · rcases List.mem_cons.mp hy2 with rfl | hy3
            · have hwx := hpre p (List.mem_cons_self p ps)
              rw [← h1] at hwx
              exact lt_of_lt_of_le hwx (not_lt.mp hc)
            · exact hpre y (List.mem_cons_of_mem p hy3)

/-- The record chosen by `shortestBy` comes from its input. -/
theorem shortestBy_mem (x : DiscoveredPath) (xs : List DiscoveredPath) :
    shortestBy x xs ∈ x :: xs := by
  obtain ⟨pre, post, hdec, _, _⟩ := shortestBy_decomp xs x
  rw [hdec]
  exact List.mem_append.mpr (Or.inr (List.mem_cons_self _ _))

/-- When a group holds no file record, its directory filter keeps every
record: a `DiscoveredPath` is either a file or a directory. -/
theorem filter_directory_of_no_file (items : List DiscoveredPath)
    (hf : items.filter (fun i => decide (i.type = PathType.file)) = []) :
    items.filter (fun i => decide (i.type = PathType.directory)) = items := by
  induction items with
  | nil => rfl
  | cons i t ih =>
    cases hty : i.type with
    | file =>
      simp [List.filter_cons, hty] at hf
    | directory =>
      simp only [List.filter_cons, hty] at hf ⊢
      simp only [decide_eq_true_eq] at hf ⊢
      rw [if_neg (by intro hcontra; exact PathType.noConfusion hcontra)] at hf
      rw [if_pos trivial]
      rw [ih hf]

/-- C1: conflict resolution is deterministic. Under a group of at least two
records sharing one alias: when the group holds a file record the returned
pair belongs to a file record of minimal `relativePath` length, the first
such record in group order (the records before it are strictly longer, the
ones after it at least as long); when the group holds only directory
records, the same holds over the directory subset. -/
theorem resolveAliasConflict_winner («alias» : String) (items : List DiscoveredPath)
    (h2 : 2 ≤ items.length) (hal : ∀ i ∈ items, i.alias = «alias») :
    (items.filter (fun i => decide (i.type = PathType.file)) ≠ [] →
      ∃ pre w post,
        items.filter (fun i => decide (i.type = PathType.file)) = pre ++ w :: post ∧
        w.type = PathType.file ∧
        resolveAliasConflict «alias» items = (w.alias, w.relativePath) ∧
        (∀ y ∈ pre, w.relativePath.length < y.relativePath.length) ∧
        (∀ y ∈ post, w.relativePath.length ≤ y.relativePath.length)) ∧
    (items.filter (fun i => decide (i.type = PathType.file)) = [] →
      ∃ pre w post,
        items.filter (fun i => decide (i.type = PathType.directory)) = pre ++ w :: post ∧
        w.type = PathType.directory ∧
        resolveAliasConflict «alias» items = (w.alias, w.relativePath) ∧
        (∀ y ∈ pre, w.relativePath.length < y.relativePath.length) ∧
        (∀ y ∈ post, w.relativePath.length ≤ y.relativePath.length)) := by
  constructor
  · intro hne
    cases hfil : items.filter (fun i => decide (i.type = PathType.file)) with
    | nil => exact absurd hfil hne
    | cons f fs =>
      have hres : resolveAliasConflict «alias» items =
          ((shortestBy f fs).alias, (shortestBy f fs).relativePath) := by
        unfold resolveAliasConflict
        rw [hfil]
      obtain ⟨pre, post, hdec, hpre, hpost⟩ := shortestBy_decomp fs f
      have hwmem : shortestBy f fs ∈
          items.filter (fun i => decide (i.type = PathType.file)) := by
        rw [hfil]
        exact shortestBy_mem f fs
      refine ⟨pre, shortestBy f fs, post, ?_, ?_, hres, hpre, hpost⟩
      · exact hdec
      · exact of_decide_eq_true (List.mem_filter.mp hwmem).2
  · intro hfil
    have hd : items.filter (fun i => decide (i.type = PathType.directory)) = items :=
      filter_directory_of_no_file items hfil
    cases items with
    | nil => simp at h2
    | cons i t =>
      have hres : resolveAliasConflict «alias» (i :: t) =
          ((shortestBy i t).alias, (shortestBy i t).relativePath) := by
        unfold resolveAliasConflict
        rw [hfil, hd]
      obtain ⟨pre, post, hdec, hpre, hpost⟩ := shortestBy_decomp t i
      have hwmem : shortestBy i t ∈
          (i :: t).filter (fun j => decide (j.type = PathType.directory)) := by
        rw [hd]
        exact shortestBy_mem i t
      refine ⟨pre, shortestBy i t, post, ?_, ?_, hres, hpre, hpost⟩
      · rw [hd, hdec]
      · exact of_decide_eq_true (List.mem_filter.mp hwmem).2

/-- Witness for C1 at a concrete two-record group: the file
`src/utils/index.ts` and the directory `src/utils`, both aliased `utils`. -/
theorem resolveAliasConflict_winner_witness :
    (([⟨"utils", "/r/src/utils/index.ts", "src/utils/index.ts", PathType.file, 2⟩,
       ⟨"utils", "/r/src/utils", "src/utils", PathType.directory, 1⟩]
        : List DiscoveredPath).filter (fun i => decide (i.type = PathType.file)) ≠ [] →
      ∃ pre w post,
        ([⟨"utils", "/r/src/utils/index.ts", "src/utils/index.ts", PathType.file, 2⟩,
          ⟨"utils", "/r/src/utils", "src/utils", PathType.directory, 1⟩]
           : List DiscoveredPath).filter (fun i => decide (i.type = PathType.file)) =
          pre ++ w :: post ∧
        w.type = PathType.file ∧
        resolveAliasConflict "utils"
          [⟨"utils", "/r/src/utils/index.ts", "src/utils/index.ts", PathType.file, 2⟩,
           ⟨"utils", "/r/src/utils", "src/utils", PathType.directory, 1⟩] =
          (w.alias, w.relativePath) ∧
        (∀ y ∈ pre, w.relativePath.length < y.relativePath.length) ∧
        (∀ y ∈ post, w.relativePath.length ≤ y.relativePath.length)) ∧
    (([⟨"utils", "/r/src/utils/index.ts", "src/utils/index.ts", PathType.file, 2⟩,
       ⟨"utils", "/r/src/utils", "src/utils", PathType.directory, 1⟩]
        : List DiscoveredPath).filter (fun i => decide (i.type = PathType.file)) = [] →
      ∃ pre w post,
        ([⟨"utils", "/r/src/utils/index.ts", "src/utils/index.ts", PathType.file, 2⟩,
          ⟨"utils", "/r/src/utils", "src/utils", PathType.directory, 1⟩]
           : List DiscoveredPath).filter (fun i => decide (i.type = PathType.directory)) =
          pre ++ w :: post ∧
        w.type = PathType.directory ∧
        resolveAliasConflict "utils"
          [⟨"utils", "/r/src/utils/index.ts", "src/utils/index.ts", PathType.file, 2⟩,
           ⟨"utils", "/r/src/utils", "src/utils", PathType.directory, 1⟩] =
          (w.alias, w.relativePath) ∧
        (∀ y ∈ pre, w.relativePath.length < y.relativePath.length) ∧
        (∀ y ∈ post, w.relativePath.length ≤ y.relativePath.length)) := by
  apply resolveAliasConflict_winner
  · exact le_refl 2
  · intro i hi
    rcases List.mem_cons.mp hi with rfl | hi2
    · rfl
    rcases List.mem_cons.mp hi2 with rfl | hi3
    · rfl
    · exact absurd hi3 (List.not_mem_nil i)

/-- Helper: the alias component returned by `resolveAliasConflict` on a
non-empty group whose records all carry the shared alias is that shared
alias (the winner is always a member of the group). -/
theorem resolveAliasConflict_fst_eq («alias» : String)
    (items : List DiscoveredPath) (hne : items ≠ [])
    (hal : ∀ i ∈ items, i.alias = «alias») :
    (resolveAliasConflict «alias» items).1 = «alias» := by
  cases hfil : items.filter (fun i => decide (i.type = PathType.file)) with
  | cons f fs =>
    have hres : resolveAliasConflict «alias» items =
        ((shortestBy f fs).alias, (shortestBy f fs).relativePath) := by
      unfold resolveAliasConflict
      rw [hfil]
    rw [hres]
    have hmem : shortestBy f fs ∈ items := by
      have h1 : shortestBy f fs ∈
          items.filter (fun i => decide (i.type = PathType.file)) := by
        rw [hfil]
        exact shortestBy_mem f fs
      exact List.mem_of_mem_filter h1
    exact hal _ hmem
  | nil =>
    cases hdir : items.filter (fun i => decide (i.type = PathType.directory)) with
    | cons d ds =>
      have hres : resolveAliasConflict «alias» items =
          ((shortestBy d ds).alias, (shortestBy d ds).relativePath) := by
        unfold resolveAliasConflict
        rw [hfil, hdir]
      rw [hres]
      have hmem : shortestBy d ds ∈ items := by
        have h1 : shortestBy d ds ∈
            items.filter (fun i => decide (i.type = PathType.directory)) := by
          rw [hdir]
          exact shortestBy_mem d ds
        exact List.mem_of_mem_filter h1
      exact hal _ hmem
    | nil =>
      cases items with
      | nil => exact absurd rfl hne
      | cons i t =>
        have hres : resolveAliasConflict «alias» (i :: t) = (i.alias, i.relativePath) := by
          unfold resolveAliasConflict
          rw [hfil, hdir]
        rw [hres]
        exact hal i (List.mem_cons_self i t)

/-- C10: conflict resolution never changes the contested alias. For every
non-empty group whose records all carry the shared alias, the alias
component returned by `resolveAliasConflict` is that shared alias, so the
winning alias named in a conflict warning always equals the original
alias. -/
theorem resolveAliasConflict_preserves_alias («alias» : String)
    (items : List DiscoveredPath) (hne : items ≠ [])
    (hal : ∀ i ∈ items, i.alias = «alias») :
    (resolveAliasConflict «alias» items).1 = «alias» :=
  resolveAliasConflict_fst_eq «alias» items hne hal

/-- Witness for C10 at the same concrete group: the returned alias is the
contested alias `utils`. -/
theorem resolveAliasConflict_preserves_alias_witness :
    (resolveAliasConflict "utils"
      [⟨"utils", "/r/src/utils/index.ts", "src/utils/index.ts", PathType.file, 2⟩,
       ⟨"utils", "/r/src/utils", "src/utils", PathType.directory, 1⟩]).1 = "utils" := by
  apply resolveAliasConflict_preserves_alias
  · exact List.cons_ne_nil _ _
  · intro i hi
    rcases List.mem_cons.mp hi with rfl | hi2
    · rfl
    rcases List.mem_cons.mp hi2 with rfl | hi3
    · rfl
    · exact absurd hi3 (List.not_mem_nil i)

/-- Equation: grouping the empty discovery list. -/
theorem groupByAlias_nil : groupByAlias [] = [] := by
  rw [groupByAlias]

/-- Equation: grouping a non-empty discovery list opens the group of the
head's alias (all records carrying it, in order) and recurses on the
remaining records. -/
theorem groupByAlias_cons (i : DiscoveredPath) (rest : List DiscoveredPath) :
    groupByAlias (i :: rest) =
      (i.alias, i :: rest.filter (fun j => j.alias = i.alias)) ::
        groupByAlias (rest.filter (fun j => j.alias ≠ i.alias)) := by
  rw [groupByAlias]

/-- Soundness of the grouping: every produced group is non-empty and all of
its records carry the group's key alias. -/
theorem groupByAlias_sound : ∀ n, ∀ l : List DiscoveredPath, l.length ≤ n →
    ∀ p ∈ groupByAlias l, p.2 ≠ [] ∧ ∀ i ∈ p.2, i.alias = p.1 := by
  intro n
  induction n with
  | zero =>
    intro l hl p hp
    rw [List.length_eq_zero.mp (Nat.le_zero.mp hl)] at hp
    rw [groupByAlias_nil] at hp
    exact absurd hp (List.not_mem_nil p)
  | succ n ih =>
    intro l hl p hp
    cases l with
    | nil =>
      rw [groupByAlias_nil] at hp
      exact absurd hp (List.not_mem_nil p)
    | cons i rest =>
      rw [groupByAlias_cons] at hp
      rcases List.mem_cons.mp hp with rfl | hp2
      · refine ⟨List.cons_ne_nil _ _, ?_⟩
        intro j hj
        rcases List.mem_cons.mp hj with rfl | hj2
        · rfl
        · exact of_decide_eq_true (List.mem_filter.mp hj2).2
      · have hlen : (rest.filter (fun j => decide (j.alias = i.alias) = false)).length ≤ n := by
          have h1 := List.length_filter_le
            (fun j => decide (decide (j.alias = i.alias) = false)) rest
          have h2 : rest.length ≤ n := by
            simp only [List.length_cons] at hl
            omega
          exact le_trans (List.length_filter_le _ _) h2
        exact ih _ (le_trans (List.length_filter_le _ _)
          (by simp only [List.length_cons] at hl; omega)) p hp2

/-- The group keys are exactly the aliases occurring in the list. -/
theorem groupByAlias_keys : ∀ n, ∀ l : List DiscoveredPath, l.length ≤ n →
    ∀ k, k ∈ (groupByAlias l).map Prod.fst ↔ k ∈ l.map (fun i => i.alias) := by
  intro n
  induction n with
  | zero =>
    intro l hl k
    rw [List.length_eq_zero.mp (Nat.le_zero.mp hl), groupByAlias_nil]
    simp
  | succ n ih =>
    intro l hl k
    cases l with
    | nil =>
      rw [groupByAlias_nil]
      simp
    | cons i rest =>
      rw [groupByAlias_cons]
      have hrn : (rest.filter (fun j => j.alias ≠ i.alias)).length ≤ n :=
        le_trans (List.length_filter_le _ _)
          (by simp only [List.length_cons] at hl; omega)
      simp only [List.map_cons, List.mem_cons]
      constructor
      · rintro (rfl | hk)
        · exact Or.inl rfl
        · rcases (ih _ hrn k).mp hk with hk2
          rcases List.mem_map.mp hk2 with ⟨j, hj, rfl⟩
          exact Or.inr (List.mem_map.mpr ⟨j, List.mem_of_mem_filter hj, rfl⟩)
      · rintro (rfl | hk)
        · exact Or.inl rfl
        · rcases List.mem_map.mp hk with ⟨j, hj, rfl⟩
          by_cases hja : j.alias = i.alias
          · exact Or.inl hja
          · refine Or.inr ((ih _ hrn _).mpr (List.mem_map.mpr ⟨j, ?_, rfl⟩))
            exact List.mem_filter.mpr ⟨hj, decide_eq_true hja⟩

/-- The group keys are pairwise distinct. -/
theorem groupByAlias_keys_nodup : ∀ n, ∀ l : List DiscoveredPath, l.length ≤ n →
    ((groupByAlias l).map Prod.fst).Nodup := by
  intro n
  induction n with
  | zero =>
    intro l hl
    rw [List.length_eq_zero.mp (Nat.le_zero.mp hl), groupByAlias_nil]
    exact List.nodup_nil
  | succ n ih =>
    intro l hl
    cases l with
    | nil =>
      rw [groupByAlias_nil]
      exact List.nodup_nil
    | cons i rest =>
      rw [groupByAlias_cons]
      have hrn : (rest.filter (fun j => j.alias ≠ i.alias)).length ≤ n :=
        le_trans (List.length_filter_le _ _)
          (by simp only [List.length_cons] at hl; omega)
      rw [List.map_cons, List.nodup_cons]
      refine ⟨?_, ih _ hrn⟩
      intro hmem
      rcases List.mem_map.mp ((groupByAlias_keys n _ hrn i.alias).mp hmem)
        with ⟨j, hj, hja⟩
      have hne := of_decide_eq_true (List.mem_filter.mp hj).2
      exact hne hja

/-- Equation: a singleton group emits its record's entry directly. -/
theorem processGroups_cons_single (k : String) (item : DiscoveredPath)
    (rest : List (String × List DiscoveredPath)) :
    processGroups ((k, [item]) :: rest) =
      (("@" ++ k, item.relativePath) :: (processGroups rest).1,
        (if item.depth > 2 then
          ["Consider using a shorter alias for deep path: " ++ item.relativePath]
        else []) ++ (processGroups rest).2.1,
        (processGroups rest).2.2) := rfl

/-- Equation: a group of two or more records goes through conflict
resolution and emits one warning. -/
theorem processGroups_cons_conflict (k : String) (a b : DiscoveredPath)
    (t : List DiscoveredPath) (rest : List (String × List DiscoveredPath)) :
    processGroups ((k, a :: b :: t) :: rest) =
      (("@" ++ (resolveAliasConflict k (a :: b :: t)).1,
          (resolveAliasConflict k (a :: b :: t)).2) :: (processGroups rest).1,
        (processGroups rest).2.1,
        ("Alias conflict resolved: " ++ k ++ " -> " ++
            (resolveAliasConflict k (a :: b :: t)).1 ++ " for " ++
            (resolveAliasConflict k (a :: b :: t)).2) :: (processGroups rest).2.2) := rfl

/-- The mapping keys produced by the group loop are the group keys, each
prefixed with the `@` marker, in group order. -/
theorem processGroups_keys : ∀ gs : List (String × List DiscoveredPath),
    (∀ p ∈ gs, p.2 ≠ [] ∧ ∀ i ∈ p.2, i.alias = p.1) →
    (processGroups gs).1.map Prod.fst = gs.map (fun g => "@" ++ g.1) := by
  intro gs
  induction gs with
  | nil => intro _; rfl
  | cons g rest ih =>
    intro h
    have hg := h g (List.mem_cons_self g rest)
    have hrest : ∀ p ∈ rest, p.2 ≠ [] ∧ ∀ i ∈ p.2, i.alias = p.1 :=
      fun p hp => h p (List.mem_cons_of_mem g hp)
    obtain ⟨k, items⟩ := g
    cases items with
    | nil => exact absurd rfl hg.1
    | cons a t =>
      cases t with
      | nil =>
        rw [processGroups_cons_single, List.map_cons, ih hrest, List.map_cons]
      | cons b t2 =>
        have hres : (resolveAliasConflict k (a :: b :: t2)).1 = k :=
          resolveAliasConflict_fst_eq k _ (List.cons_ne_nil _ _) hg.2
        rw [processGroups_cons_conflict, List.map_cons, ih hrest, List.map_cons, hres]

/-- C2: the mappings table contains one entry per distinct discovered
alias. Every discovered alias appears as the key formed by the `@` marker
followed by the alias, every key of the table has that form for some
discovered record, and no key occurs twice. -/
theorem generateMappings_covers_aliases (l : List DiscoveredPath) :
    (∀ i ∈ l, ("@" ++ i.alias) ∈ (generateMappings l).mappings.map Prod.fst) ∧
    (∀ k ∈ (generateMappings l).mappings.map Prod.fst, ∃ i ∈ l, k = "@" ++ i.alias) ∧
    ((generateMappings l).mappings.map Prod.fst).Nodup := by
  have hsound := groupByAlias_sound l.length l le_rfl
  have hkeys : (generateMappings l).mappings.map Prod.fst =
      (groupByAlias l).map (fun g => "@" ++ g.1) :=
    processGroups_keys _ hsound
  refine ⟨?_, ?_, ?_⟩
  · intro i hi
    rw [hkeys]
    have hmem : i.alias ∈ (groupByAlias l).map Prod.fst :=
      (groupByAlias_keys l.length l le_rfl i.alias).mpr (List.mem_map.mpr ⟨i, hi, rfl⟩)
    rcases List.mem_map.mp hmem with ⟨g, hg, hgk⟩
    exact List.mem_map.mpr ⟨g, hg, by rw [hgk]⟩
  · intro k hk
    rw [hkeys] at hk
    rcases List.mem_map.mp hk with ⟨g, hg, rfl⟩
    have hmem : g.1 ∈ (groupByAlias l).map Prod.fst := List.mem_map.mpr ⟨g, hg, rfl⟩
    rcases List.mem_map.mp ((groupByAlias_keys l.length l le_rfl g.1).mp hmem)
      with ⟨i, hi, hia⟩
    exact ⟨i, hi, by rw [hia]⟩
  · rw [hkeys]
    have hnd := groupByAlias_keys_nodup l.length l le_rfl
    have hmm : (groupByAlias l).map (fun g => "@" ++ g.1) =
        ((groupByAlias l).map Prod.fst).map (fun a => "@" ++ a) := by
      rw [List.map_map]
      rfl
    rw [hmm]
    refine List.Nodup.map ?_ hnd
    intro a b hab
    have hdata : ("@" ++ a).data = ("@" ++ b).data := congrArg String.data hab
    rw [String.data_append, String.data_append] at hdata
    exact String.toList_inj.mp (List.append_cancel_left hdata)

/-- Witness for C2 at a concrete discovered set of two records with
distinct aliases. -/
theorem generateMappings_covers_aliases_witness :
    (∀ i ∈ ([⟨"button", "/r/src/Button.tsx", "src/Button.tsx", PathType.file, 1⟩,
             ⟨"helpers", "/r/src/helpers.ts", "src/helpers.ts", PathType.file, 1⟩]
              : List DiscoveredPath),
      ("@" ++ i.alias) ∈
        (generateMappings
          [⟨"button", "/r/src/Button.tsx", "src/Button.tsx", PathType.file, 1⟩,
           ⟨"helpers", "/r/src/helpers.ts", "src/helpers.ts", PathType.file, 1⟩]).mappings.map
          Prod.fst) ∧
    (∀ k ∈ (generateMappings
          [⟨"button", "/r/src/Button.tsx", "src/Button.tsx", PathType.file, 1⟩,
           ⟨"helpers", "/r/src/helpers.ts", "src/helpers.ts", PathType.file, 1⟩]).mappings.map
          Prod.fst,
      ∃ i ∈ ([⟨"button", "/r/src/Button.tsx", "src/Button.tsx", PathType.file, 1⟩,
              ⟨"helpers", "/r/src/helpers.ts", "src/helpers.ts", PathType.file, 1⟩]
               : List DiscoveredPath), k = "@" ++ i.alias) ∧
    ((generateMappings
        [⟨"button", "/r/src/Button.tsx", "src/Button.tsx", PathType.file, 1⟩,
         ⟨"helpers", "/r/src/helpers.ts", "src/helpers.ts", PathType.file, 1⟩]).mappings.map
        Prod.fst).Nodup :=
  generateMappings_covers_aliases
    [⟨"button", "/r/src/Button.tsx", "src/Button.tsx", PathType.file, 1⟩,
     ⟨"helpers", "/r/src/helpers.ts", "src/helpers.ts", PathType.file, 1⟩]

/-- C9: the `errors` diagnostic slot of `generateMappings` is always empty;
no path of the mapping-build pipeline appends to it. -/
theorem generateMappings_errors_empty (discovered : List DiscoveredPath) :
    (generateMappings discovered).errors = [] := rfl

/-- An empty error filter is the same boolean as all issues being
non-errors. -/
theorem filter_length_zero_eq_all (l : List ValidationIssue) :
    ((l.filter (fun issue => issue.type == IssueType.error)).length == 0) =
      l.all (fun issue => !(issue.type == IssueType.error)) := by
  induction l with
  | nil => rfl
  | cons i t ih =>
    rw [List.filter_cons, List.all_cons]
    cases h : (i.type == IssueType.error) with
    | true => simp
    | false => simp [ih]

/-- C5: the `isValid` flag of every validation run is true exactly when the
produced issues list holds no issue of severity `error`; `info` (and
`warning`) issues never affect it. Every return path of
`validateExistingMappings` satisfies the boolean equation. -/
theorem validateExistingMappings_isValid_iff_no_error (env : ValidateEnv)
    (rootDir : String) (tsConfigPath : Option String) :
    (validateExistingMappings env rootDir tsConfigPath).isValid =
      (validateExistingMappings env rootDir tsConfigPath).issues.all
        (fun issue => !(issue.type == IssueType.error)) := by
  unfold validateExistingMappings
  split
  · rfl
  · split
    · rfl
    · split
      · simp [List.all_append]
        intro _
        rfl
      · exact filter_length_zero_eq_all _

/-- C8: when the targeted configuration file does not exist, validation
returns `isValid = false` with exactly one issue, of severity `error`,
reporting the missing file; nothing else is produced. -/
theorem validateExistingMappings_missing_config (env : ValidateEnv)
    (rootDir : String) (tsConfigPath : Option String)
    (h : env.configExists = false) :
    validateExistingMappings env rootDir tsConfigPath =
      { isValid := false
        issues := [{ type := IssueType.error
                     message := "tsconfig.json not found"
                     path := some (tsConfigPath.getD (rootDir ++ "/tsconfig.json"))
                     suggestion := none }] } := by
  unfold validateExistingMappings
  rw [if_pos h]

/-- Witness for C8 at a concrete environment whose configuration file is
missing. -/
theorem validateExistingMappings_missing_config_witness :
    ({ configExists := false, readResult := none, pathMappingValid := fun _ => true,
       discoverResult := none, errorText := "" } : ValidateEnv).configExists = false ∧
    validateExistingMappings
        { configExists := false, readResult := none, pathMappingValid := fun _ => true,
          discoverResult := none, errorText := "" } "/r" none =
      { isValid := false
        issues := [{ type := IssueType.error
                     message := "tsconfig.json not found"
                     path := some "/r/tsconfig.json"
                     suggestion := none }] } :=
  ⟨rfl, validateExistingMappings_missing_config
    { configExists := false, readResult := none, pathMappingValid := fun _ => true,
      discoverResult := none, errorText := "" } "/r" none rfl⟩

/-- Overriding keeps the entry's key. -/
theorem spreadOverride_fst (b : List (String × PVal)) (kv : String × PVal) :
    (spreadOverride b kv).1 = kv.1 := by
  unfold spreadOverride
  cases b.lookup kv.1 <;> rfl

/-- Overriding twice by the same object is overriding once. -/
theorem spreadOverride_idem (b : List (String × PVal)) (kv : String × PVal) :
    spreadOverride b (spreadOverride b kv) = spreadOverride b kv := by
  unfold spreadOverride
  cases h : b.lookup kv.1 with
  | none => simp [h]
  | some v => simp [h]

/-- Lookup in an object with pairwise-distinct keys finds the value of any
of its entries. -/
theorem lookup_eq_of_mem_nodup (b : List (String × PVal))
    (hb : (b.map Prod.fst).Nodup) (kv : String × PVal) (hmem : kv ∈ b) :
    b.lookup kv.1 = some kv.2 := by
  induction b with
  | nil => exact absurd hmem (List.not_mem_nil kv)
  | cons hd tl ih =>
    rw [List.map_cons, List.nodup_cons] at hb
    rcases List.mem_cons.mp hmem with heq | hmem2
    · subst heq
      obtain ⟨k, v⟩ := kv
      simp [List.lookup_cons]
    · obtain ⟨k, v⟩ := hd
      have hk : kv.1 ≠ k := by
        intro hcontra
        exact hb.1 (hcontra ▸ List.mem_map.mpr ⟨kv, hmem2, rfl⟩)
      rw [List.lookup_cons]
      have : (kv.1 == k) = false := beq_eq_false_iff_ne.mpr hk
      rw [this]
      exact ih hb.2 hmem2

/-- An element of an object with pairwise-distinct keys is fixed by
overriding with that object. -/
theorem spreadOverride_mem (b : List (String × PVal))
    (hb : (b.map Prod.fst).Nodup) (kv : String × PVal) (hmem : kv ∈ b) :
    spreadOverride b kv = kv := by
  unfold spreadOverride
  rw [lookup_eq_of_mem_nodup b hb kv hmem]

/-- The keys of a spread are the left keys followed by the new right keys. -/
theorem objSpread_keys (a b : List (String × PVal)) :
    (objSpread a b).map Prod.fst =
      a.map Prod.fst ++
        (b.filter (fun kv => !((a.map Prod.fst).contains kv.1))).map Prod.fst := by
  unfold objSpread
  rw [List.map_append]
  congr 1
  induction a with
  | nil => rfl
  | cons x t ih => rw [List.map_cons, List.map_cons, ih, List.map_cons, spreadOverride_fst]

/-- Every key of the right object occurs among the keys of the spread. -/
theorem objSpread_key_mem (a b : List (String × PVal)) (kv : String × PVal)
    (hmem : kv ∈ b) : kv.1 ∈ (objSpread a b).map Prod.fst := by
  rw [objSpread_keys]
  by_cases hk : kv.1 ∈ a.map Prod.fst
  · exact List.mem_append.mpr (Or.inl hk)
  · refine List.mem_append.mpr (Or.inr ?_)
    refine List.mem_map.mpr ⟨kv, ?_, rfl⟩
    refine List.mem_filter.mpr ⟨hmem, ?_⟩
    simp [List.elem_eq_mem, hk]

/-- Spreading from the empty object is the identity. -/
theorem objSpread_nil_left (b : List (String × PVal)) : objSpread [] b = b := by
  unfold objSpread
  rw [List.map_nil, List.nil_append]
  induction b with
  | nil => rfl
  | cons x t ih => rw [List.filter_cons, if_pos (by simp), ih]

/-- Spreading the same object twice yields the same result as spreading it
once, provided its keys are pairwise distinct. -/
theorem objSpread_idem (a b : List (String × PVal)) (hb : (b.map Prod.fst).Nodup) :
    objSpread (objSpread a b) b = objSpread a b := by
  have hfix : ∀ kv ∈ objSpread a b, spreadOverride b kv = kv := by
    intro kv hkv
    unfold objSpread at hkv
    rcases List.mem_append.mp hkv with hkv1 | hkv2
    · rcases List.mem_map.mp hkv1 with ⟨y, _, rfl⟩
      exact spreadOverride_idem b y
    · exact spreadOverride_mem b hb kv (List.mem_of_mem_filter hkv2)
  have hmapid : (objSpread a b).map (spreadOverride b) = objSpread a b := by
    have h1 : (objSpread a b).map (spreadOverride b) = (objSpread a b).map id :=
      List.map_congr_left (fun x hx => hfix x hx)
    rw [h1, List.map_id]
  have hfilter : b.filter
      (fun kv => !(((objSpread a b).map Prod.fst).contains kv.1)) = [] := by
    rw [List.filter_eq_nil_iff]
    intro kv hkv
    simp [List.elem_eq_mem, objSpread_key_mem a b kv hkv]
  show (objSpread a b).map (spreadOverride b) ++ _ = _
  rw [hmapid, hfilter, List.append_nil]

/-- Spreading an object with pairwise-distinct keys onto itself is the
identity. -/
theorem objSpread_self (b : List (String × PVal)) (hb : (b.map Prod.fst).Nodup) :
    objSpread b b = b := by
  have h := objSpread_idem [] b hb
  rw [objSpread_nil_left] at h
  exact h

/-- Reduction of the update on a document that already carries a `paths`
node: the merge branch spreads the new table over it. -/
theorem updateTsConfigDoc_concrete (p : List (String × PVal))
    (r rest : List (String × String)) (T : List (String × String)) :
    updateTsConfigDoc (some ⟨some ⟨some p, r⟩, rest⟩) T true =
      ⟨some ⟨some (objSpread p (strMap T)), r⟩, rest⟩ := rfl

/-- The stored table keeps the plain table's keys. -/
theorem strMap_keys (T : List (String × String)) :
    (strMap T).map Prod.fst = T.map Prod.fst := by
  unfold strMap
  rw [List.map_map]
  rfl

/-- C6: merge idempotence. Applying a table with `merge = true` and then
applying the same table again with `merge = true` to the result yields the
document of the single application, for every starting document and every
table with pairwise-distinct keys (a JavaScript object cannot repeat a
key). -/
theorem updateTsConfig_merge_idem (D : TsConfigDoc) (T : List (String × String))
    (hnd : (T.map Prod.fst).Nodup) :
    updateTsConfigDoc (some (updateTsConfigDoc (some D) T true)) T true =
      updateTsConfigDoc (some D) T true := by
  have hstr : ((strMap T).map Prod.fst).Nodup := by
    rw [strMap_keys]
    exact hnd
  obtain ⟨copt, rest⟩ := D
  cases copt with
  | none =>
    have h1 : updateTsConfigDoc (some ⟨none, rest⟩) T true =
        ⟨some ⟨some (strMap T), []⟩, rest⟩ := rfl
    rw [h1, updateTsConfigDoc_concrete, objSpread_self _ hstr]
  | some co =>
    obtain ⟨pths, r⟩ := co
    cases pths with
    | none =>
      have h1 : updateTsConfigDoc (some ⟨some ⟨none, r⟩, rest⟩) T true =
          ⟨some ⟨some (strMap T), r⟩, rest⟩ := rfl
      rw [h1, updateTsConfigDoc_concrete, objSpread_self _ hstr]
    | some old =>
      have h1 : updateTsConfigDoc (some ⟨some ⟨some old, r⟩, rest⟩) T true =
          ⟨some ⟨some (objSpread old (strMap T)), r⟩, rest⟩ := rfl
      rw [h1, updateTsConfigDoc_concrete, objSpread_idem _ _ hstr]

/-- Witness for C6 at a concrete document carrying a prior `paths` node and
a one-entry table. -/
theorem updateTsConfig_merge_idem_witness :
    ((([("@a", "src/a")] : List (String × String)).map Prod.fst).Nodup) ∧
    updateTsConfigDoc
        (some (updateTsConfigDoc
          (some ⟨some ⟨some [("@b", PVal.str "src/b")], []⟩, []⟩)
          [("@a", "src/a")] true))
        [("@a", "src/a")] true =
      updateTsConfigDoc
        (some ⟨some ⟨some [("@b", PVal.str "src/b")], []⟩, []⟩)
        [("@a", "src/a")] true :=
  ⟨by simp, updateTsConfig_merge_idem ⟨some ⟨some [("@b", PVal.str "src/b")], []⟩, []⟩
    [("@a", "src/a")] (by simp)⟩

/-- C7: replace semantics. Applying a table with `merge = false` leaves the
`compilerOptions.paths` node exactly equal to the new table (in its stored
string-valued form), whatever the prior contents of the document. -/
theorem updateTsConfig_replace (D : TsConfigDoc) (T : List (String × String)) :
    pathsNode (updateTsConfigDoc (some D) T false) = some (strMap T) := by
  obtain ⟨copt, rest⟩ := D
  cases copt with
  | none => rfl
  | some co =>
    obtain ⟨pths, r⟩ := co
    cases pths with
    | none => rfl
    | some old => rfl
